import Mathlib

/-!
Verification of the album-browser core (scanner, metadata inference, filter,
binary cache) against its natural-language specification.  The C++ sources
`scanner.cc`, `metadata.cc`, `album.h` and `album-browser.cc` are shallowly
embedded below: pure logic is translated function-by-function, filesystem
contents are passed explicitly as a tree value, TagLib probing is abstracted
by oracles, and the two `std::sort` calls are treated according to their
C++ contract (the album sort relationally, because `std::sort` is not
stable; the audio-file sort deterministically, because its key order is
antisymmetric, so every conforming result is the same list).
-/

namespace AlbumBrowser

/-- Model of the C `tolower` function (C locale) applied byte-wise by
`std::transform(..., ::tolower)` in scanner.cc: only ASCII capitals move. -/
def lowerChar (c : Char) : Char :=
  if 'A' ≤ c && c ≤ 'Z' then Char.ofNat (c.toNat + 32) else c

/-- Byte-wise lowering of a whole string, as done on extensions and on the
sort keys in scanner.cc. -/
def lowerStr (s : String) : String :=
  ⟨s.data.map lowerChar⟩

/-- Model of GLib `g_utf8_strdown`, used by `AlbumBrowserPlugin::to_lower`
(album-browser.cc) for the filter; represented by Unicode per-char lowering. -/
def to_lower (s : String) : String :=
  ⟨s.data.map Char.toLower⟩

/-- Substring test with the semantics of `std::string::find(...) != npos`:
true when the needle occurs contiguously inside the haystack (an empty
needle always occurs). -/
def occursIn : List Char → List Char → Bool
  | [], needle => needle.isEmpty
  | c :: t, needle => needle.isPrefixOf (c :: t) || occursIn t needle

/-- String-level wrapper for `occursIn`. -/
def strContains (hay needle : String) : Bool :=
  occursIn hay.data needle.data

/-- Name of the last path component, as `std::filesystem::path::filename`
produces it for the paths handled here: the characters after the last
slash (empty when the path ends in a slash). -/
def leafName (p : String) : String :=
  ⟨(p.data.reverse.takeWhile (fun c => c ≠ '/')).reverse⟩

/-- Leaf name of the parent directory, following metadata.cc: empty when
the path has no slash at all (no parent path), otherwise the last
component of the path with its final component removed. -/
def parentLeafName (p : String) : String :=
  if p.data.contains '/' then
    leafName ⟨((p.data.reverse.dropWhile (fun c => c ≠ '/')).drop 1).reverse⟩
  else ""

/-- Whitespace class of `\s` in a `std::regex` ECMAScript pattern over
ASCII input. -/
def isWsChar (c : Char) : Bool :=
  c = ' ' || c = '\t' || c = '\n' || c = '\x0b' || c = '\x0c' || c = '\r'

/-- Line terminators, which the ECMAScript `.` atom refuses to match. -/
def isLineTerm (c : Char) : Bool :=
  c = '\n' || c = '\r'

/-- ASCII digit test for the `\d` atom. -/
def isDigitCh (c : Char) : Bool :=
  '0' ≤ c && c ≤ '9'

/-- Numeric value of an ASCII digit. -/
def digitVal (c : Char) : Nat :=
  c.toNat - 48

/-- Backtracking search for the split performed by `\s+(.+)$`: try the
greediest cut `k` first (all of the leading whitespace run), and fall back
to shorter cuts; a cut is acceptable when something non-empty remains and
that remainder has no line terminator (the `.` atom cannot cross one). -/
def splitTail : Nat → List Char → Option (List Char)
  | 0, _ => none
  | k + 1, rest =>
    let tail := rest.drop (k + 1)
    if !tail.isEmpty && tail.all (fun c => !isLineTerm c) then some tail
    else splitTail k rest

/-- Match of the anchored pattern `^\((\d{4})\)\s+(.+)$` from metadata.cc
against a directory leaf name, returning the parsed year (as `std::stoi`
parses the four digits) and the captured title remainder. -/
def matchYearPattern (s : List Char) : Option (Nat × List Char) :=
  match s with
  | c0 :: d1 :: d2 :: d3 :: d4 :: c5 :: rest =>
    if c0 = '(' && isDigitCh d1 && isDigitCh d2 && isDigitCh d3 && isDigitCh d4 && c5 = ')' then
      match splitTail ((rest.takeWhile isWsChar).length) rest with
      | some tail =>
        some (((digitVal d1 * 10 + digitVal d2) * 10 + digitVal d3) * 10 + digitVal d4, tail)
      | none => none
    else none
  | _ => none

/-- Result record of `extract_metadata` (the fields of `Album` that the
function fills in). -/
structure Meta where
  title : String
  artist : String
  year : Int
deriving DecidableEq, Repr

/-- Reserved parent names that metadata.cc refuses to use as an artist. -/
def reservedParents : List String :=
  ["Music", "music", "Albums", "albums"]

/-- Model of `extract_metadata` (metadata.cc): year and title from the
directory leaf name via the `"(YYYY) Rest"` pattern, artist from the
parent directory name unless that name is empty or reserved. -/
def extract_metadata (directory_path : String) : Meta :=
  let album_name := leafName directory_path
  let parent_name := parentLeafName directory_path
  let ty : String × Int :=
    match matchYearPattern album_name.data with
    | some (y, tail) => (⟨tail⟩, (y : Int))
    | none => (album_name, 0)
  let artist :=
    if parent_name ≠ "" && !reservedParents.contains parent_name then parent_name
    else ""
  { title := ty.1, artist := artist, year := ty.2 }

/-- Album record from album.h; `year` is a C `int`, modeled as `Int`. -/
structure Album where
  directory_path : String
  title : String
  artist : String
  year : Int
  cover_art_path : String
  audio_files : List String
deriving DecidableEq, Repr

/-- Model of `AlbumBrowserPlugin::album_matches_filter` (album-browser.cc):
empty filter matches everything; otherwise the lowered filter is searched in
the lowered title, artist and directory path, and, only when `year > 0`,
the raw filter is searched in the decimal rendering of the year.  The album
is taken by value and never mutated. -/
def album_matches_filter (album : Album) (filter : String) : Bool :=
  if filter = "" then true
  else
    let filter_lower := to_lower filter
    if strContains (to_lower album.title) filter_lower then true
    else if strContains (to_lower album.artist) filter_lower then true
    else if strContains (to_lower album.directory_path) filter_lower then true
    else if album.year > 0 then strContains (toString album.year) filter
    else false

/-- Snapshot of one directory entry as the scanner sees it: a regular file
or a subdirectory with its own entries, in directory-iteration order. -/
inductive FSEntry where
  | file (name : String)
  | dir (name : String) (children : List FSEntry)
deriving Repr

/-- Name of a directory entry. -/
def FSEntry.name : FSEntry → String
  | .file n => n
  | .dir n _ => n

/-- Test from `entry.is_directory()`. -/
def FSEntry.isDir : FSEntry → Bool
  | .file _ => false
  | .dir _ _ => true

/-- Recognized audio extensions from scanner.cc (already lowered). -/
def audioExtensions : List String :=
  [".flac", ".mp3", ".ogg", ".opus", ".m4a", ".aac", ".wav", ".wv", ".ape"]

/-- Recognized image extensions from `find_cover_art` (already lowered). -/
def imageExtensions : List String :=
  [".jpg", ".jpeg", ".png", ".gif", ".bmp", ".webp"]

/-- Extension of a bare filename with the decomposition rules of
`std::filesystem::path::extension`: the substring starting at the last
period, except that `.`, `..`, names without a period and names whose only
period is the leading character have no extension. -/
def extOf (n : String) : String :=
  if n = "." || n = ".." then ""
  else
    let r := n.data.reverse
    let pre := r.takeWhile (fun c => c ≠ '.')
    if pre.length = r.length || pre.length + 1 = r.length then ""
    else ⟨'.' :: pre.reverse⟩

/-- Extension of a full path: `std::filesystem::path::extension` looks only
at the final component. -/
def fsExtension (p : String) : String :=
  extOf (leafName p)

/-- Skip test applied to every regular file in scanner.cc: macOS sidecar
files (`._` prefix, length over two) and hidden files (`.` prefix) are
ignored.  The length guard of the first test is subsumed by the second,
exactly as in the source. -/
def is_skipped_file (n : String) : Bool :=
  (n.length > 2 && n.data.take 2 = ['.', '_']) || n.data.take 1 = ['.']

/-- Eligibility of a regular file for an album: not skipped, and its
lowered extension is a recognized audio extension. -/
def isAudioName (n : String) : Bool :=
  !is_skipped_file n && audioExtensions.contains (lowerStr (extOf n))

/-- Model of `Scanner::is_leaf_directory`: no entry is a directory.  The
`filesystem_error` branch (unreadable directory, reported as non-leaf)
does not arise for an explicitly given snapshot. -/
def is_leaf_directory (children : List FSEntry) : Bool :=
  children.all (fun e => !e.isDir)

/-- Model of `Scanner::contains_audio_files`: some regular file survives
the hidden/sidecar skip and carries a recognized audio extension. -/
def contains_audio_files (children : List FSEntry) : Bool :=
  children.any fun e =>
    match e with
    | .file n => isAudioName n
    | .dir _ _ => false

/-- Path concatenation as `fs::path::operator/` renders it for the paths
built here: a separator is inserted unless one is already present. -/
def joinPath (p n : String) : String :=
  if p.data.getLast? = some '/' then p ++ n else p ++ "/" ++ n

/-- Priority list of conventional cover filenames from `find_cover_art`,
in probe order. -/
def cover_names : List String :=
  ["Cover.jpg", "Folder.jpg", "cover.jpg", "folder.jpg", "front.jpg", "Front.jpg",
   "album.jpg", "Album.jpg", "artwork.jpg", "Artwork.jpg",
   "Cover.png", "Folder.png", "cover.png", "folder.png", "front.png", "Front.png",
   "album.png", "Album.png", "artwork.png", "Artwork.png",
   "Cover.jpeg", "cover.jpeg", "Folder.jpeg", "folder.jpeg",
   "cover.JPG", "COVER.JPG", "folder.JPG", "FOLDER.JPG"]

/-- First regular file of the directory that passes the skip test and has
a recognized image extension, in directory-iteration order (the fallback
loop of `find_cover_art`). -/
def firstImageFile (children : List FSEntry) : Option String :=
  children.findSome? fun e =>
    match e with
    | FSEntry.file n =>
      if !is_skipped_file n && imageExtensions.contains (lowerStr (extOf n)) then some n
      else none
    | FSEntry.dir _ _ => none

/-- Model of `Scanner::find_cover_art`: probe the conventional names (the
`fs::exists && fs::is_regular_file` test holds exactly when a regular file
of that name is among the entries), then fall back to the first image
file, then give up with the empty string. -/
def find_cover_art (path : String) (children : List FSEntry) : String :=
  match cover_names.find? (fun n => children.any fun e =>
      match e with
      | FSEntry.file m => m == n
      | FSEntry.dir _ _ => false) with
  | some n => joinPath path n
  | none =>
    match firstImageFile children with
    | some n => joinPath path n
    | none => ""

/-- Model of `Scanner::extract_embedded_art`.  TagLib probing is I/O, so
the picture lookup is abstracted: `flacPic f` (resp. `mp3Apic f`) is the
byte count of the first FLAC picture block (resp. first ID3v2 APIC frame)
of file `f`, or `none` when the file is invalid or carries none; `hashOf`
stands for `std::hash<std::string>`.  Only `.flac` and `.mp3` extensions
are probed at all; on success the extracted bytes land in a temp file whose
name is derived from the hash of the source path. -/
def extract_embedded_art (flacPic mp3Apic : String → Option Nat) (hashOf : String → Nat)
    (audio_file : String) : String :=
  let ext := lowerStr (fsExtension audio_file)
  if ext = ".flac" then
    match flacPic audio_file with
    | some size => if size > 0 then "/tmp/audacious_cover_" ++ toString (hashOf audio_file) ++ ".jpg" else ""
    | none => ""
  else if ext = ".mp3" then
    match mp3Apic audio_file with
    | some size => if size > 0 then "/tmp/audacious_cover_" ++ toString (hashOf audio_file) ++ ".jpg" else ""
    | none => ""
  else ""

/-- Lexicographic comparison of character lists, the order `operator<`
imposes on `std::string` contents. -/
def lexLt : List Char → List Char → Bool
  | [], [] => false
  | [], _ :: _ => true
  | _ :: _, [] => false
  | a :: as, b :: bs => if a < b then true else if b < a then false else lexLt as bs

/-- Path order used to model the `std::sort` call on `album.audio_files`:
the `std::string` byte order, i.e. equality or lexicographic less-than.
Since this order is total and antisymmetric, every conforming `std::sort`
output is the same unique sorted arrangement, so that sort is modeled
deterministically (unlike the album sort below, whose key admits ties). -/
def pathLe (a b : String) : Prop :=
  a = b ∨ lexLt a.data b.data = true

instance : DecidableRel pathLe :=
  fun a b => inferInstanceAs (Decidable (a = b ∨ lexLt a.data b.data = true))

/-- Eligible audio files of a directory, as full paths, in
directory-iteration order (the collection loop of
`create_album_from_directory`; in a snapshot the `fs::exists &&
fs::is_regular_file` re-check always passes). -/
def audioFilePaths (path : String) (children : List FSEntry) : List String :=
  children.filterMap fun e =>
    match e with
    | FSEntry.file n => if isAudioName n then some (joinPath path n) else none
    | FSEntry.dir _ _ => none

/-- Model of `Scanner::create_album_from_directory`: fill in metadata,
file-based cover art, the sorted eligible audio files, and fall back to
embedded art from the first audio file when no file-based art was found. -/
def create_album_from_directory (flacPic mp3Apic : String → Option Nat) (hashOf : String → Nat)
    (path : String) (children : List FSEntry) : Album :=
  let meta := extract_metadata path
  let cover0 := find_cover_art path children
  let audio := (audioFilePaths path children).insertionSort pathLe
  let cover :=
    if cover0 = "" then
      match audio with
      | [] => cover0
      | f :: _ => extract_embedded_art flacPic mp3Apic hashOf f
    else cover0
  { directory_path := path, title := meta.title, artist := meta.artist,
    year := meta.year, cover_art_path := cover, audio_files := audio }

/-- Entries visited by `fs::recursive_directory_iterator` below a base
directory, with their full paths: each entry in iteration order, a
directory immediately followed by its own subtree. -/
def rdirEntries (base : String) : List FSEntry → List (String × FSEntry)
  | [] => []
  | FSEntry.file n :: rest => (joinPath base n, FSEntry.file n) :: rdirEntries base rest
  | FSEntry.dir n cs :: rest =>
    (joinPath base n, FSEntry.dir n cs) ::
      (rdirEntries (joinPath base n) cs ++ rdirEntries base rest)

/-- First pass of `Scanner::scan_directory_tree` (uncancelled): the album
candidates, i.e. the visited directories that are leaves and contain audio
files, with their entries, in visit order. -/
def album_dirs (root : String) (rc : List FSEntry) : List (String × List FSEntry) :=
  (rdirEntries root rc).filterMap fun pe =>
    match pe with
    | (p, FSEntry.dir _ cs) =>
      if is_leaf_directory cs && contains_audio_files cs then some (p, cs) else none
    | (_, FSEntry.file _) => none

/-- Second pass of `Scanner::scan_directory_tree` (uncancelled): build an
album per candidate and drop those that ended with no audio files. -/
def built_albums (flacPic mp3Apic : String → Option Nat) (hashOf : String → Nat)
    (root : String) (rc : List FSEntry) : List Album :=
  ((album_dirs root rc).map fun pc =>
    create_album_from_directory flacPic mp3Apic hashOf pc.1 pc.2).filter
      fun a => !a.audio_files.isEmpty

/-- Comparator passed to the final `std::sort` over albums: strict order
by byte-lowered title. -/
def titleLt (a b : Album) : Bool :=
  lexLt (lowerStr a.title).data (lowerStr b.title).data

/-- Postcondition of `std::sort` with comparator `lt`: the output is a
permutation of the input with no adjacent pair out of order.  Nothing
more is promised — in particular, `std::sort` is not stable, so the
arrangement of equivalent elements is unspecified. -/
def stdSortPost {α : Type} (lt : α → α → Bool) (input output : List α) : Prop :=
  output.Perm input ∧ List.Chain' (fun a b => lt b a = false) output

/-- Full result relation of an uncancelled `Scanner::scan_directory_tree`
run on an existing root directory with entries `rc`: any list obtainable
from the built albums by the final (unstable) title sort. -/
def scan_result (flacPic mp3Apic : String → Option Nat) (hashOf : String → Nat)
    (root : String) (rc : List FSEntry) (albums : List Album) : Prop :=
  stdSortPost titleLt (built_albums flacPic mp3Apic hashOf root rc) albums

/-- Little-endian four-byte rendering of a `uint32_t` value; assigning a
wider value truncates modulo 2^32, which the byte extraction performs
implicitly.  Bytes are carried as `Nat` (always below 256 here). -/
def u32le (n : Nat) : List Nat :=
  [n % 256, n / 256 % 256, n / 65536 % 256, n / 16777216 % 256]

/-- Value of four little-endian bytes. -/
def decodeLE (a b c d : Nat) : Nat :=
  a + 256 * b + 65536 * c + 16777216 * d

/-- Reading of a four-byte pattern as a signed `int` (two's complement). -/
def toI32 (n : Nat) : Int :=
  if n < 2147483648 then (n : Int) else (n : Int) - 4294967296

/-- Little-endian rendering of a C `int` (two's complement). -/
def i32le (y : Int) : List Nat :=
  u32le ((y % 4294967296).toNat)

/-- Serialized form of one length-prefixed string in `save_cache`: the
length is assigned to a `uint32_t` (truncating), and that many bytes of
the string are written. -/
def writeStr (s : List Nat) : List Nat :=
  u32le s.length ++ s.take (s.length % 4294967296)

/-- Album record as the cache layer sees it: `std::string` is a raw byte
container, so the string fields are byte lists here. -/
structure CAlbum where
  directory_path : List Nat
  title : List Nat
  artist : List Nat
  year : Int
  cover_art_path : List Nat
  audio_files : List (List Nat)
deriving DecidableEq, Repr

/-- Serialized form of one album in `AlbumBrowserPlugin::save_cache`. -/
def save_album (a : CAlbum) : List Nat :=
  writeStr a.directory_path ++ writeStr a.title ++ writeStr a.artist ++
    i32le a.year ++ writeStr a.cover_art_path ++
    u32le a.audio_files.length ++ (a.audio_files.map writeStr).flatten

/-- Model of `AlbumBrowserPlugin::save_cache`: version word, length-prefixed
root path, album count, then each album in collection order. -/
def save_cache (root : List Nat) (albums : List CAlbum) : List Nat :=
  u32le 1 ++ writeStr root ++ u32le albums.length ++ (albums.map save_album).flatten

/-- State of the `std::ifstream` in `load_cache`: the bytes not yet
consumed and the sticky fail flag.  `ifstream::read` never throws here
(no exception mask is set), so a short read just raises the flag. -/
structure IStream where
  rem : List Nat
  fail : Bool
deriving DecidableEq, Repr

/-- Read of a `uint32_t`.  When the stream has already failed, or fails
now, the destination variable keeps its previous contents `old` (a read
that obtains one to three of the four bytes leaves a mixture of old and
new bytes in the variable; that case is modeled as `old` too, and no
theorem below exercises it — every failing input used ends at a field
boundary). -/
def readU32 (s : IStream) (old : Nat) : Nat × IStream :=
  if s.fail then (old, s)
  else
    match s.rem with
    | a :: b :: c :: d :: rest => (decodeLE a b c d, ⟨rest, false⟩)
    | _ => (old, ⟨[], true⟩)

/-- Read of a C `int`, same conventions as `readU32`. -/
def readI32 (s : IStream) (old : Int) : Int × IStream :=
  if s.fail then (old, s)
  else
    match s.rem with
    | a :: b :: c :: d :: rest => (toI32 (decodeLE a b c d), ⟨rest, false⟩)
    | _ => (old, ⟨[], true⟩)

/-- Read of `n` bytes into a string buffer that `load_cache` has just
filled with NUL bytes (`resize` or the fill constructor): a failed read
leaves the remainder of the buffer at NUL and raises the flag. -/
def readStr (s : IStream) (n : Nat) : List Nat × IStream :=
  if s.fail then (List.replicate n 0, s)
  else if n ≤ s.rem.length then (s.rem.take n, ⟨s.rem.drop n, false⟩)
  else (s.rem ++ List.replicate (n - s.rem.length) 0, ⟨[], true⟩)

/-- Audio-file loop of `load_cache`; `len` threads the current value of
the reused `uint32_t len` variable of the enclosing album iteration. -/
def readFileList : Nat → IStream → Nat → List (List Nat) × IStream
  | 0, s, _ => ([], s)
  | k + 1, s, len =>
    match readU32 s len with
    | (len1, s1) =>
      match readStr s1 len1 with
      | (f, s2) =>
        match readFileList k s2 len1 with
        | (files, s3) => (f :: files, s3)

/-- One album iteration of `load_cache`.  The local `uint32_t len` is
uninitialized before its first read and is then reused field to field;
`junk` stands for whatever an uninitialized `uint32_t` holds (undefined
behavior if ever observed — the theorems below only use inputs on which
the result is independent of `junk`).  `album.year` starts at 0 from the
`Album` constructor, and `file_count` is a fresh uninitialized local. -/
def read_album (junk : Nat) (s : IStream) : CAlbum × IStream :=
  match readU32 s junk with
  | (len1, s1) =>
    match readStr s1 len1 with
    | (dp, s2) =>
      match readU32 s2 len1 with
      | (len2, s3) =>
        match readStr s3 len2 with
        | (ti, s4) =>
          match readU32 s4 len2 with
          | (len3, s5) =>
            match readStr s5 len3 with
            | (ar, s6) =>
              match readI32 s6 0 with
              | (yr, s7) =>
                match readU32 s7 len3 with
                | (len4, s8) =>
                  match readStr s8 len4 with
                  | (cv, s9) =>
                    match readU32 s9 junk with
                    | (fc, s10) =>
                      match readFileList fc s10 len4 with
                      | (afs, s11) => (⟨dp, ti, ar, yr, cv, afs⟩, s11)

/-- Album loop of `load_cache`. -/
def read_albums (junk : Nat) : Nat → IStream → List CAlbum × IStream
  | 0, s => ([], s)
  | k + 1, s =>
    match read_album junk s with
    | (a, s1) =>
      match read_albums junk k s1 with
      | (albums, s2) => (a :: albums, s2)

/-- Model of `AlbumBrowserPlugin::load_cache` as the pure CacheStore
contract `load(file, root)`: `none` stands for an absent cache file, and
the early returns (version mismatch, root mismatch) leave the initially
empty collection empty.  Read failures raise the stream's fail flag and
are otherwise silent — `ifstream::read` does not throw, so the
`catch` block of the source (which would clear the collection) is
unreachable for truncation. -/
def load_cache (file : Option (List Nat)) (root : List Nat) (junk : Nat) : List CAlbum :=
  match file with
  | none => []
  | some bytes =>
    match readU32 ⟨bytes, false⟩ junk with
    | (version, s1) =>
      if version ≠ 1 then []
      else
        match readU32 s1 junk with
        | (dirLen, s2) =>
          match readStr s2 dirLen with
          | (cachedDir, s3) =>
            if cachedDir ≠ root then []
            else
              match readU32 s3 junk with
              | (albumCount, s4) => (read_albums junk albumCount s4).1

/-- Observable events of the `Scanner` concurrency discipline
(scanner.cc).  `scanning_` and `cancel_requested_` are sequentially
consistent `std::atomic<bool>`, so an interleaving of these atomic steps
captures every execution: a `scan_async` call (its scanning check, join
of a previous worker, and spawn happen on the caller thread, which runs
one call at a time), a `cancel` call, the worker's transition that
finishes `scan_directory_tree` and clears `scanning_`, and the worker's
final cancel check with the completion callback. -/
inductive ScanEv where
  | callScan
  | callCancel
  | workerClear
  | workerFinal
deriving DecidableEq, Repr

/-- Progress of the single worker thread. -/
inductive WorkerPC where
  | idle
  | running
  | cleared
  | done
deriving DecidableEq, Repr

/-- Shared state of the scanner plus the count of completion-callback
invocations observed so far. -/
structure ScannerState where
  scanning : Bool
  cancelRequested : Bool
  pc : WorkerPC
  callbackCount : Nat
deriving DecidableEq, Repr

/-- State right after `Scanner()` construction. -/
def initState : ScannerState :=
  ⟨false, false, WorkerPC.idle, 0⟩

/-- Effect of `scan_thread_.join()` inside `scan_async`: the caller blocks
until the worker body finishes, so any remaining worker steps execute
first (clearing `scanning_`, then the cancel check and possibly the
callback). -/
def joinWorker (s : ScannerState) : ScannerState :=
  match s.pc with
  | WorkerPC.running =>
    { s with scanning := false, pc := WorkerPC.done,
             callbackCount := if s.cancelRequested then s.callbackCount else s.callbackCount + 1 }
  | WorkerPC.cleared =>
    { s with pc := WorkerPC.done,
             callbackCount := if s.cancelRequested then s.callbackCount else s.callbackCount + 1 }
  | _ => s

/-- Small-step semantics of one event.  `callScan` is `scan_async` with a
non-null callback: a no-op while `scanning_` is set, otherwise join the
previous worker, set the flags and spawn.  `workerClear` and
`workerFinal` only fire when the worker is at the matching point. -/
def step (s : ScannerState) : ScanEv → ScannerState
  | ScanEv.callScan =>
    if s.scanning then s
    else
      let s1 := joinWorker s
      { s1 with scanning := true, cancelRequested := false, pc := WorkerPC.running }
  | ScanEv.callCancel => { s with cancelRequested := true }
  | ScanEv.workerClear =>
    if s.pc = WorkerPC.running then { s with scanning := false, pc := WorkerPC.cleared } else s
  | ScanEv.workerFinal =>
    if s.pc = WorkerPC.cleared then
      { s with pc := WorkerPC.done,
               callbackCount := if s.cancelRequested then s.callbackCount else s.callbackCount + 1 }
    else s

/-- Execution of an event trace from the freshly constructed scanner. -/
def run (evs : List ScanEv) : ScannerState :=
  evs.foldl step initState

/-- Events owned by the worker thread. -/
def isWorkerEv (e : ScanEv) : Bool :=
  e = ScanEv.workerClear || e = ScanEv.workerFinal

/-- Spec-side reading of the sentence "the leaf name matches the pattern
(YYYY) Rest Of Name, amended to the regex actually used: a four-digit
group in parentheses, one or more whitespace characters, then a non-empty
remainder free of line terminators". -/
def YearPatternHolds (leaf : List Char) : Prop :=
  ∃ d1 d2 d3 d4 ws tail,
    leaf = '(' :: d1 :: d2 :: d3 :: d4 :: ')' :: (ws ++ tail) ∧
    isDigitCh d1 = true ∧ isDigitCh d2 = true ∧ isDigitCh d3 = true ∧ isDigitCh d4 = true ∧
    ws ≠ [] ∧ (∀ c ∈ ws, isWsChar c = true) ∧
    tail ≠ [] ∧ (∀ c ∈ tail, isLineTerm c = false)

/-- Whitespace trimming on both ends, formalizing the claim's word
"trimmed". -/
def trimWs (l : List Char) : List Char :=
  ((l.dropWhile isWsChar).reverse.dropWhile isWsChar).reverse

/-- Spec-side reading of the claim C4 membership condition, as frozen:
the lowered query occurs in a lowered text field, or the year is non-zero
and the raw query occurs in the decimal year. -/
def matchesSpecC4 (a : Album) (q : String) : Prop :=
  (to_lower q).data <:+: (to_lower a.title).data ∨
  (to_lower q).data <:+: (to_lower a.artist).data ∨
  (to_lower q).data <:+: (to_lower a.directory_path).data ∨
  (a.year ≠ 0 ∧ q.data <:+: (toString a.year).data)

/-- Invariant used for claim C8: at most one callback so far, and none yet
while the worker has not passed its final check. -/
def AtMostOneInv (s : ScannerState) : Prop :=
  s.callbackCount ≤ 1 ∧
    ((s.pc = WorkerPC.running ∨ s.pc = WorkerPC.cleared) → s.callbackCount = 0)

/-- Bounds under which one album serializes and parses exactly. -/
def CAlbumFits (a : CAlbum) : Prop :=
  a.directory_path.length < 4294967296 ∧ a.title.length < 4294967296 ∧
  a.artist.length < 4294967296 ∧ -2147483648 ≤ a.year ∧ a.year < 2147483648 ∧
  a.cover_art_path.length < 4294967296 ∧ a.audio_files.length < 4294967296 ∧
  ∀ f ∈ a.audio_files, f.length < 4294967296

/-- Cache image used to exhibit the truncation bug: version 1, root `R`,
one album claiming two audio files but truncated after the first file
path.  Field by field: directory `d`, title `t`, empty artist, year 1999,
empty cover path, file count 2, then a single one-byte path `a`. -/
def truncatedCacheBytes : List Nat :=
  u32le 1 ++ u32le 1 ++ [82] ++ u32le 1 ++
    (u32le 1 ++ [100]) ++ (u32le 1 ++ [116]) ++ u32le 0 ++ i32le 1999 ++ u32le 0 ++
    u32le 2 ++ (u32le 1 ++ [97])

/-- Oracle describing audio files with no embedded artwork. -/
def noPic : String → Option Nat := fun _ => none

/-- Placeholder hash oracle. -/
def zeroHash : String → Nat := fun _ => 0

/-- Total order on albums by lowered title, the key of the album sort; a
stable sort by this key is the formal reading of "ties keep directory
order". -/
def titleLeP (a b : Album) : Prop :=
  pathLe (lowerStr a.title) (lowerStr b.title)

instance : DecidableRel titleLeP :=
  fun a b => inferInstanceAs (Decidable (pathLe (lowerStr a.title) (lowerStr b.title)))

/-! Helper lemmas shared by the claim proofs. -/

/-- Agreement of the executable lexicographic comparison with the
mathematical lexicographic order on character lists. -/
theorem lexLt_iff : ∀ l₁ l₂ : List Char,
    lexLt l₁ l₂ = true ↔ List.Lex (fun a b : Char => a < b) l₁ l₂ := by
  intro l₁
  induction l₁ with
  | nil =>
    intro l₂
    cases l₂ with
    | nil =>
      constructor
      · intro h
        simp [lexLt] at h
      · intro h
        cases h
    | cons b bs =>
      constructor
      · intro _
        exact List.Lex.nil
      · intro _
        rfl
  | cons a as ih =>
    intro l₂
    cases l₂ with
    | nil =>
      constructor
      · intro h
        simp [lexLt] at h
      · intro h
        cases h
    | cons b bs =>
      show (if a < b then true else if b < a then false else lexLt as bs) = true ↔ _
      by_cases hab : a < b
      · rw [if_pos hab]
        exact ⟨fun _ => List.Lex.rel hab, fun _ => rfl⟩
      · rw [if_neg hab]
        by_cases hba : b < a
        · rw [if_pos hba]
          constructor
          · intro h
            exact absurd h (by simp)
          · intro h
            cases h with
            | rel hr => exact absurd hr hab
            | cons h' => exact absurd hba (lt_irrefl a)
        · rw [if_neg hba]
          have hEq : a = b := by
            rcases lt_trichotomy a b with h | h | h
            · exact absurd h hab
            · exact h
            · exact absurd h hba
          subst hEq
          rw [ih bs]
          constructor
          · exact fun h => List.Lex.cons h
          · intro h
            cases h with
            | rel hr => exact absurd hr (lt_irrefl a)
            | cons h' => exact h'

/-- String-level form of `lexLt_iff`. -/
theorem strLt_iff (a b : String) : lexLt a.data b.data = true ↔ a < b := by
  rw [lexLt_iff]
  exact (String.lt_iff_toList_lt).symm

/-- Agreement of `pathLe` with the library order on strings. -/
theorem pathLe_iff (a b : String) : pathLe a b ↔ a ≤ b := by
  rw [pathLe, strLt_iff, le_iff_lt_or_eq]
  exact or_comm

/-- Correctness of the substring scan against the mathematical contiguous
sublist relation. -/
theorem occursIn_iff (hay needle : List Char) : occursIn hay needle = true ↔ needle <:+: hay := by
  induction hay with
  | nil =>
    simp [occursIn, List.isEmpty_iff, List.infix_nil]
  | cons c t ih =>
    simp [occursIn, List.infix_cons_iff, List.isPrefixOf_iff_prefix, ih]

/-- String-level form of `occursIn_iff`. -/
theorem strContains_iff (hay needle : String) :
    strContains hay needle = true ↔ needle.data <:+: hay.data :=
  occursIn_iff hay.data needle.data

/-- Lists all of whose elements satisfy `p` are fixed by `takeWhile p`. -/
theorem takeWhile_of_all {p : Char → Bool} : ∀ {l : List Char},
    (∀ c ∈ l, p c = true) → l.takeWhile p = l
  | [], _ => rfl
  | c :: t, h => by
    have hc : p c = true := h c (List.mem_cons_self c t)
    simp [List.takeWhile, hc, takeWhile_of_all fun x hx => h x (List.mem_cons_of_mem c hx)]

/-- Every tail produced by `splitTail` is a cut of the scanned remainder at
some admissible position. -/
theorem splitTail_some : ∀ {m : Nat} {rest t : List Char}, splitTail m rest = some t →
    ∃ k, 1 ≤ k ∧ k ≤ m ∧ t = rest.drop k ∧ t ≠ [] ∧ ∀ c ∈ t, isLineTerm c = false := by
  intro m
  induction m with
  | zero => intro rest t h; simp [splitTail] at h
  | succ n ih =>
    intro rest t h
    simp only [splitTail] at h
    by_cases hc : (!(rest.drop (n + 1)).isEmpty && (rest.drop (n + 1)).all fun c => !isLineTerm c) = true
    · rw [if_pos hc] at h
      obtain ⟨hne, hall⟩ := Bool.and_eq_true_iff.mp hc
      refine ⟨n + 1, Nat.le_add_left 1 n, Nat.le_refl _, (Option.some_inj.mp h).symm, ?_, ?_⟩
      · cases h; simpa [List.isEmpty_iff] using hne
      · cases h
        intro c hcm
        have := List.all_eq_true.mp hall c hcm
        simpa using this
    · rw [if_neg hc] at h
      obtain ⟨k, h1, h2, h3, h4, h5⟩ := ih h
      exact ⟨k, h1, Nat.le_trans h2 (Nat.le_succ n), h3, h4, h5⟩

/-- Whenever some admissible cut exists within the whitespace budget,
`splitTail` finds one. -/
theorem splitTail_of_exists : ∀ {m : Nat} {rest : List Char},
    (∃ k, 1 ≤ k ∧ k ≤ m ∧ rest.drop k ≠ [] ∧ ∀ c ∈ rest.drop k, isLineTerm c = false) →
    ∃ t, splitTail m rest = some t := by
  intro m
  induction m with
  | zero =>
    intro rest h
    obtain ⟨k, h1, h2, -⟩ := h
    omega
  | succ n ih =>
    intro rest h
    simp only [splitTail]
    by_cases hc : (!(rest.drop (n + 1)).isEmpty && (rest.drop (n + 1)).all fun c => !isLineTerm c) = true
    · rw [if_pos hc]; exact ⟨_, rfl⟩
    · rw [if_neg hc]
      apply ih
      obtain ⟨k, h1, h2, h3, h4⟩ := h
      refine ⟨k, h1, ?_, h3, h4⟩
      rcases Nat.lt_or_ge k (n + 1) with hk | hk
      · omega
      · exfalso
        have hkeq : k = n + 1 := Nat.le_antisymm h2 hk
        subst hkeq
        apply hc
        rw [Bool.and_eq_true_iff]
        constructor
        · simpa [List.isEmpty_iff] using h3
        · rw [List.all_eq_true]
          intro c hcm
          simpa using h4 c hcm

/-- Decomposition of a successful regex match. -/
theorem matchYearPattern_some {leaf : List Char} {y : Nat} {t : List Char}
    (h : matchYearPattern leaf = some (y, t)) :
    ∃ d1 d2 d3 d4 rest k,
      leaf = '(' :: d1 :: d2 :: d3 :: d4 :: ')' :: rest ∧
      isDigitCh d1 = true ∧ isDigitCh d2 = true ∧ isDigitCh d3 = true ∧ isDigitCh d4 = true ∧
      y = ((digitVal d1 * 10 + digitVal d2) * 10 + digitVal d3) * 10 + digitVal d4 ∧
      1 ≤ k ∧ (∀ c ∈ rest.take k, isWsChar c = true) ∧
      t = rest.drop k ∧ t ≠ [] ∧ (∀ c ∈ t, isLineTerm c = false) := by
  unfold matchYearPattern at h
  split at h
  case h_2 => exact absurd h (by simp)
  case h_1 c0 d1 d2 d3 d4 c5 rest =>
    split at h
    case isFalse => exact absurd h (by simp)
    case isTrue hguard =>
      split at h
      case h_2 => exact absurd h (by simp)
      case h_1 tail hsplit =>
        obtain ⟨hy, ht⟩ : _ ∧ tail = t := by
          have := Option.some_inj.mp h
          exact ⟨congrArg Prod.fst this, congrArg Prod.snd this⟩
        subst ht
        obtain ⟨k, hk1, hk2, hkdrop, hkne, hklt⟩ := splitTail_some hsplit
        simp only [Bool.and_eq_true_iff, decide_eq_true_eq] at hguard
        obtain ⟨⟨⟨⟨⟨hc0, hd1⟩, hd2⟩, hd3⟩, hd4⟩, hc5⟩ := hguard
        subst hc0; subst hc5
        refine ⟨d1, d2, d3, d4, rest, k, rfl, hd1, hd2, hd3, hd4, hy.symm, hk1, ?_, hkdrop, hkne, hklt⟩
        intro c hcm
        have hsub : rest.take k = (rest.takeWhile isWsChar).take k := by
          conv_lhs => rw [← List.takeWhile_append_dropWhile isWsChar rest]
          rw [List.take_append_eq_append_take, Nat.sub_eq_zero_of_le hk2, List.take_zero,
            List.append_nil]
        rw [hsub] at hcm
        exact List.mem_takeWhile_imp (List.mem_of_mem_take hcm)

/-- Every leaf satisfying the pattern is matched by the regex. -/
theorem matchYearPattern_of_holds {leaf : List Char} (h : YearPatternHolds leaf) :
    ∃ y t, matchYearPattern leaf = some (y, t) := by
  obtain ⟨d1, d2, d3, d4, ws, tail, heq, hd1, hd2, hd3, hd4, hws, hwsall, htne, htlt⟩ := h
  subst heq
  simp only [matchYearPattern]
  rw [if_pos (by simp [hd1, hd2, hd3, hd4])]
  have hlen : ws.length ≤ ((ws ++ tail).takeWhile isWsChar).length := by
    rw [List.takeWhile_append, takeWhile_of_all hwsall, if_pos rfl, List.length_append]
    exact Nat.le_add_right _ _
  have hdrop : (ws ++ tail).drop ws.length = tail := List.drop_left ws tail
  obtain ⟨t, ht⟩ := splitTail_of_exists
    ⟨ws.length, List.length_pos.mpr hws, hlen, by rw [hdrop]; exact htne,
      by rw [hdrop]; exact htlt⟩
  rw [ht]
  exact ⟨_, _, rfl⟩

/-- Conversely, a successful regex match certifies the pattern. -/
theorem holds_of_matchYearPattern {leaf : List Char} {y : Nat} {t : List Char}
    (h : matchYearPattern leaf = some (y, t)) : YearPatternHolds leaf := by
  obtain ⟨d1, d2, d3, d4, rest, k, heq, hd1, hd2, hd3, hd4, _, hk1, hws, hdrop, hne, hlt⟩ :=
    matchYearPattern_some h
  refine ⟨d1, d2, d3, d4, rest.take k, rest.drop k, ?_, hd1, hd2, hd3, hd4, ?_, hws, ?_, ?_⟩
  · rw [heq, List.take_append_drop]
  · have hrest : k < rest.length := by
      by_contra hcon
      exact hne (by rw [hdrop] at *; exact List.drop_eq_nil_of_le (Nat.le_of_not_lt hcon))
    have : (rest.take k).length = k := by
      rw [List.length_take]
      omega
    intro hnil
    rw [hnil] at this
    simp at this
    omega
  · rw [← hdrop]; exact hne
  · rw [← hdrop]; exact hlt

/-- Claim C3, counterexample: for the directory name `(1994) Dummy `
(trailing space) the code yields the year 1994 but a title that still
carries the trailing whitespace, hence not the trimmed remainder the claim
prescribes (a trimmed string is a fixed point of trimming; this title is
not). -/
theorem extract_metadata_trailing_space_not_trimmed :
    (extract_metadata "/Music/(1994) Dummy ").year = 1994 ∧
    (extract_metadata "/Music/(1994) Dummy ").title = "Dummy " ∧
    (extract_metadata "/Music/(1994) Dummy ").title.data ≠
      trimWs (extract_metadata "/Music/(1994) Dummy ").title.data := by
  refine ⟨by decide, by decide, by decide⟩

/-- Claim C3, amended: when the leaf name matches the regex pattern
(four digits in parentheses, one or more whitespace characters, a
non-empty line-terminator-free remainder), the year is the parsed number
and the title is the remainder after the greedily matched whitespace
separator, with trailing whitespace preserved; otherwise the title is the
full leaf name and the year is 0. -/
theorem extract_metadata_spec (p : String) :
    (YearPatternHolds (leafName p).data →
      ∃ d1 d2 d3 d4 rest k,
        (leafName p).data = '(' :: d1 :: d2 :: d3 :: d4 :: ')' :: rest ∧
        (extract_metadata p).year =
          (((digitVal d1 * 10 + digitVal d2) * 10 + digitVal d3) * 10 + digitVal d4 : Nat) ∧
        1 ≤ k ∧ (∀ c ∈ rest.take k, isWsChar c = true) ∧
        (extract_metadata p).title.data = rest.drop k ∧ rest.drop k ≠ []) ∧
    (¬ YearPatternHolds (leafName p).data →
      (extract_metadata p).title = leafName p ∧ (extract_metadata p).year = 0) := by
  constructor
  · intro h
    obtain ⟨y, t, hm⟩ := matchYearPattern_of_holds h
    obtain ⟨d1, d2, d3, d4, rest, k, heq, _, _, _, _, hy, hk1, hws, ht, hne, -⟩ :=
      matchYearPattern_some hm
    refine ⟨d1, d2, d3, d4, rest, k, heq, ?_, hk1, hws, ?_, ?_⟩
    · simp only [extract_metadata, hm, hy]
    · simp only [extract_metadata, hm, ht]
    · rw [← ht]; exact hne
  · intro h
    cases hm : matchYearPattern (leafName p).data with
    | none => exact ⟨by simp only [extract_metadata, hm], by simp only [extract_metadata, hm]⟩
    | some yt =>
      exact absurd (holds_of_matchYearPattern (t := yt.2) (y := yt.1) (by rw [hm])) h

/-- Witness for the amended claim C3 at the concrete path
`/Music/(1994) Dummy`. -/
theorem extract_metadata_spec_witness :
    ∃ d1 d2 d3 d4 rest k,
      (leafName "/Music/(1994) Dummy").data = '(' :: d1 :: d2 :: d3 :: d4 :: ')' :: rest ∧
      (extract_metadata "/Music/(1994) Dummy").year =
        (((digitVal d1 * 10 + digitVal d2) * 10 + digitVal d3) * 10 + digitVal d4 : Nat) ∧
      1 ≤ k ∧ (∀ c ∈ rest.take k, isWsChar c = true) ∧
      (extract_metadata "/Music/(1994) Dummy").title.data = rest.drop k ∧ rest.drop k ≠ [] :=
  (extract_metadata_spec "/Music/(1994) Dummy").1
    ⟨'1', '9', '9', '4', [' '], "Dummy".data, by decide, by decide, by decide, by decide,
      by decide, by decide, by decide, by decide, by decide⟩

/-- Claim C4, counterexample: for an album whose `year` field holds the
representable value -1 (reachable through the cache loader, which reads
the `int` straight from disk) and the query `-1`, the claim's condition
holds (the year is non-zero and `-1` occurs in its decimal string) but
the code rejects, because its guard is `year > 0`, not `year != 0`. -/
theorem album_matches_filter_negative_year_counterexample :
    album_matches_filter ⟨"/d", "x", "", -1, "", []⟩ "-1" = false ∧
    matchesSpecC4 ⟨"/d", "x", "", -1, "", []⟩ "-1" := by
  constructor
  · decide
  · refine Or.inr (Or.inr (Or.inr ⟨by decide, ?_⟩))
    show ("-1" : String).data <:+: (toString (-1 : Int)).data
    decide

/-- Claim C4, amended: the empty query matches every album, and a
non-empty query matches exactly when the lowered query occurs in the
lowered title, artist or directory path, or the year is positive (rather
than merely non-zero) and the raw query occurs in the decimal year.  The
predicate is a pure function of the album value. -/
theorem album_matches_filter_spec (a : Album) (q : String) :
    album_matches_filter a "" = true ∧
    (q ≠ "" →
      (album_matches_filter a q = true ↔
        ((to_lower q).data <:+: (to_lower a.title).data ∨
         (to_lower q).data <:+: (to_lower a.artist).data ∨
         (to_lower q).data <:+: (to_lower a.directory_path).data ∨
         (0 < a.year ∧ q.data <:+: (toString a.year).data)))) := by
  constructor
  · simp [album_matches_filter]
  · intro hq
    simp only [album_matches_filter, if_neg hq]
    split_ifs with h1 h2 h3 h4
    · simp only [true_iff]
      exact Or.inl ((strContains_iff _ _).mp h1)
    · simp only [true_iff]
      exact Or.inr (Or.inl ((strContains_iff _ _).mp h2))
    · simp only [true_iff]
      exact Or.inr (Or.inr (Or.inl ((strContains_iff _ _).mp h3)))
    · rw [strContains_iff]
      constructor
      · intro hy
        exact Or.inr (Or.inr (Or.inr ⟨by exact_mod_cast h4, hy⟩))
      · intro hy
        rcases hy with hy | hy | hy | hy
        · exact absurd ((strContains_iff _ _).mpr hy) (by simpa using h1)
        · exact absurd ((strContains_iff _ _).mpr hy) (by simpa using h2)
        · exact absurd ((strContains_iff _ _).mpr hy) (by simpa using h3)
        · exact hy.2
    · simp only [false_iff]
      intro hy
      rcases hy with hy | hy | hy | hy
      · exact absurd ((strContains_iff _ _).mpr hy) (by simpa using h1)
      · exact absurd ((strContains_iff _ _).mpr hy) (by simpa using h2)
      · exact absurd ((strContains_iff _ _).mpr hy) (by simpa using h3)
      · exact h4 (by exact_mod_cast hy.1)

/-- Witness for the amended claim C4: the query `wall` matches the
sample album through its title. -/
theorem album_matches_filter_spec_witness :
    album_matches_filter ⟨"/Music/Pink Floyd/(1979) The Wall", "The Wall", "Pink Floyd", 1979, "", []⟩ "wall" = true :=
  ((album_matches_filter_spec
      ⟨"/Music/Pink Floyd/(1979) The Wall", "The Wall", "Pink Floyd", 1979, "", []⟩ "wall").2
    (by decide)).mpr (Or.inl (by decide))

/-- Case split for worker events. -/
theorem isWorkerEv_cases {e : ScanEv} (h : isWorkerEv e = true) :
    e = ScanEv.workerClear ∨ e = ScanEv.workerFinal := by
  cases e <;> simp [isWorkerEv] at h ⊢

/-- Worker events are not `scan_async` calls. -/
theorem isWorkerEv_ne_callScan {e : ScanEv} (h : isWorkerEv e = true) : e ≠ ScanEv.callScan := by
  rcases isWorkerEv_cases h with h | h <;> simp [h]

/-- Worker steps preserve the at-most-one invariant. -/
theorem atMostOne_fold : ∀ (t : List ScanEv), (∀ e ∈ t, isWorkerEv e = true) →
    ∀ s : ScannerState, AtMostOneInv s → AtMostOneInv (t.foldl step s) := by
  intro t
  induction t with
  | nil => intro _ s hs; exact hs
  | cons e rest ih =>
    intro hall s hs
    have he := hall e (List.mem_cons_self e rest)
    have hrest : ∀ x ∈ rest, isWorkerEv x = true := fun x hx => hall x (List.mem_cons_of_mem e hx)
    rw [List.foldl_cons]
    apply ih hrest
    obtain ⟨h1, h2⟩ := hs
    rcases isWorkerEv_cases he with he' | he' <;> subst he'
    · simp only [step]
      by_cases hpc : s.pc = WorkerPC.running
      · rw [if_pos hpc]
        exact ⟨h1, fun _ => h2 (Or.inl hpc)⟩
      · rw [if_neg hpc]
        exact ⟨h1, h2⟩
    · simp only [step]
      by_cases hpc : s.pc = WorkerPC.cleared
      · rw [if_pos hpc]
        refine ⟨?_, ?_⟩
        · have h0 := h2 (Or.inr hpc)
          split <;> dsimp only <;> omega
        · intro hor
          rcases hor with hor | hor <;> simp at hor
      · rw [if_neg hpc]
        exact ⟨h1, h2⟩

/-- Claim C8: a second `scan_async` call issued while a scan is running
is a no-op (the state after two back-to-back calls equals the state after
one), any worker-only continuation yields at most one callback, and the
completing continuation yields exactly one. -/
theorem scan_async_twice_single_callback :
    run [ScanEv.callScan, ScanEv.callScan] = run [ScanEv.callScan] ∧
    (∀ rest : List ScanEv, (∀ e ∈ rest, isWorkerEv e = true) →
      (run ([ScanEv.callScan, ScanEv.callScan] ++ rest)).callbackCount ≤ 1) ∧
    (run [ScanEv.callScan, ScanEv.callScan, ScanEv.workerClear,
      ScanEv.workerFinal]).callbackCount = 1 := by
  refine ⟨by decide, ?_, by decide⟩
  intro rest hrest
  have hrun : run ([ScanEv.callScan, ScanEv.callScan] ++ rest) =
      rest.foldl step (run [ScanEv.callScan, ScanEv.callScan]) := by
    simp [run, List.foldl_append]
  rw [hrun]
  have hstate : run [ScanEv.callScan, ScanEv.callScan] =
      ⟨true, false, WorkerPC.running, 0⟩ := by decide
  rw [hstate]
  exact (atMostOne_fold rest hrest _ ⟨by decide, fun _ => rfl⟩).1

/-- Witness for claim C8 at the completing worker-only continuation. -/
theorem scan_async_twice_single_callback_witness :
    (run ([ScanEv.callScan, ScanEv.callScan] ++
      [ScanEv.workerClear, ScanEv.workerFinal])).callbackCount ≤ 1 :=
  scan_async_twice_single_callback.2.1 [ScanEv.workerClear, ScanEv.workerFinal] (by decide)

/-- Non-`scan_async` events keep the worker away from the running state
once it has left it. -/
theorem pc_not_running_fold : ∀ (t : List ScanEv), (∀ e ∈ t, e ≠ ScanEv.callScan) →
    ∀ s : ScannerState, s.pc ≠ WorkerPC.running → (t.foldl step s).pc ≠ WorkerPC.running := by
  intro t
  induction t with
  | nil => intro _ s hs; exact hs
  | cons e rest ih =>
    intro hall s hs
    rw [List.foldl_cons]
    apply ih (fun x hx => hall x (List.mem_cons_of_mem e hx))
    cases e with
    | callScan => exact absurd rfl (hall _ (List.mem_cons_self _ _))
    | callCancel => exact hs
    | workerClear => simp only [step]; rw [if_neg hs]; exact hs
    | workerFinal =>
      simp only [step]
      by_cases hpc : s.pc = WorkerPC.cleared
      · rw [if_pos hpc]; simp
      · rw [if_neg hpc]; exact hs

/-- Once a `workerClear` event occurs in a trace without `scan_async`
calls, the worker never reports running again. -/
theorem clear_in_fold_not_running : ∀ (t : List ScanEv), (∀ e ∈ t, e ≠ ScanEv.callScan) →
    ScanEv.workerClear ∈ t →
    ∀ s : ScannerState, (t.foldl step s).pc ≠ WorkerPC.running := by
  intro t
  induction t with
  | nil => intro _ hm; simp at hm
  | cons e rest ih =>
    intro hall hm s
    have hrest : ∀ x ∈ rest, x ≠ ScanEv.callScan := fun x hx => hall x (List.mem_cons_of_mem e hx)
    rw [List.foldl_cons]
    by_cases hmem : ScanEv.workerClear ∈ rest
    · exact ih hrest hmem _
    · have he : e = ScanEv.workerClear := by
        rcases List.mem_cons.mp hm with h | h
        · exact h.symm
        · exact absurd h hmem
      subst he
      apply pc_not_running_fold rest hrest
      simp only [step]
      by_cases hpc : s.pc = WorkerPC.running
      · rw [if_pos hpc]; simp
      · rw [if_neg hpc]; exact hpc

/-- Without `scan_async` calls, `scanning_` is set exactly while the
worker is in its running phase. -/
theorem scanning_iff_running_fold : ∀ (t : List ScanEv), (∀ e ∈ t, e ≠ ScanEv.callScan) →
    ∀ s : ScannerState, (s.scanning = true ↔ s.pc = WorkerPC.running) →
    ((t.foldl step s).scanning = true ↔ (t.foldl step s).pc = WorkerPC.running) := by
  intro t
  induction t with
  | nil => intro _ s hs; exact hs
  | cons e rest ih =>
    intro hall s hs
    rw [List.foldl_cons]
    apply ih (fun x hx => hall x (List.mem_cons_of_mem e hx))
    cases e with
    | callScan => exact absurd rfl (hall _ (List.mem_cons_self _ _))
    | callCancel => exact hs
    | workerClear =>
      simp only [step]
      by_cases hpc : s.pc = WorkerPC.running
      · rw [if_pos hpc]; simp
      · rw [if_neg hpc]; exact hs
    | workerFinal =>
      simp only [step]
      by_cases hpc : s.pc = WorkerPC.cleared
      · rw [if_pos hpc]
        simp only
        constructor
        · intro h
          exact absurd (hs.mp h) (by rw [hpc]; simp)
        · intro h
          exact absurd h (by simp)
      · rw [if_neg hpc]; exact hs

/-- Worker-only steps without a `workerFinal` change neither the callback
count nor the cancel flag. -/
theorem count_cancel_fold_nofinal : ∀ (t : List ScanEv), (∀ e ∈ t, isWorkerEv e = true) →
    ScanEv.workerFinal ∉ t →
    ∀ s : ScannerState, ((t.foldl step s).callbackCount = s.callbackCount ∧
      (t.foldl step s).cancelRequested = s.cancelRequested) := by
  intro t
  induction t with
  | nil => intro _ _ s; exact ⟨rfl, rfl⟩
  | cons e rest ih =>
    intro hall hmem s
    have he : e = ScanEv.workerClear := by
      rcases isWorkerEv_cases (hall e (List.mem_cons_self e rest)) with h | h
      · exact h
      · exact absurd (h ▸ List.mem_cons_self e rest) hmem
    subst he
    rw [List.foldl_cons]
    have := ih (fun x hx => hall x (List.mem_cons_of_mem _ hx))
      (fun hx => hmem (List.mem_cons_of_mem _ hx))
      (step s ScanEv.workerClear)
    constructor
    · rw [this.1]
      simp only [step]
      split <;> rfl
    · rw [this.2]
      simp only [step]
      split <;> rfl

/-- After a cancel request, later non-`scan_async` events invoke no
callback and keep the request set. -/
theorem count_zero_cancelled_fold : ∀ (t : List ScanEv), (∀ e ∈ t, e ≠ ScanEv.callScan) →
    ∀ s : ScannerState, s.cancelRequested = true →
    ((t.foldl step s).callbackCount = s.callbackCount ∧
      (t.foldl step s).cancelRequested = true) := by
  intro t
  induction t with
  | nil => intro _ s hs; exact ⟨rfl, hs⟩
  | cons e rest ih =>
    intro hall s hs
    rw [List.foldl_cons]
    have hstep : (step s e).callbackCount = s.callbackCount ∧ (step s e).cancelRequested = true := by
      cases e with
      | callScan => exact absurd rfl (hall _ (List.mem_cons_self _ _))
      | callCancel => exact ⟨rfl, rfl⟩
      | workerClear => simp only [step]; split <;> exact ⟨rfl, hs⟩
      | workerFinal =>
        simp only [step]
        split
        · rw [hs]
          exact ⟨rfl, rfl⟩
        · exact ⟨rfl, hs⟩
    have := ih (fun x hx => hall x (List.mem_cons_of_mem e hx)) (step s e) hstep.2
    exact ⟨this.1.trans hstep.1, this.2⟩

/-- Claim C9: when `cancel()` arrives after `scan_async` but before the
worker has passed its final cancel check, the completion callback is
never invoked, and the scanner still leaves the scanning state as soon as
the worker has cleared it. -/
theorem cancel_skips_callback (t1 t2 : List ScanEv)
    (h1 : ∀ e ∈ t1, isWorkerEv e = true) (h2 : ∀ e ∈ t2, isWorkerEv e = true)
    (hnf : ScanEv.workerFinal ∉ t1) :
    (run (ScanEv.callScan :: (t1 ++ ScanEv.callCancel :: t2))).callbackCount = 0 ∧
    (ScanEv.workerClear ∈ t1 ∨ ScanEv.workerClear ∈ t2 →
      (run (ScanEv.callScan :: (t1 ++ ScanEv.callCancel :: t2))).scanning = false) := by
  have hs1 : step initState ScanEv.callScan = ⟨true, false, WorkerPC.running, 0⟩ := by decide
  have hrun : run (ScanEv.callScan :: (t1 ++ ScanEv.callCancel :: t2)) =
      t2.foldl step (step (t1.foldl step ⟨true, false, WorkerPC.running, 0⟩) ScanEv.callCancel) := by
    simp [run, List.foldl_cons, hs1, List.foldl_append]
  have hne1 : ∀ e ∈ t1, e ≠ ScanEv.callScan := fun e he => isWorkerEv_ne_callScan (h1 e he)
  have hne2 : ∀ e ∈ t2, e ≠ ScanEv.callScan := fun e he => isWorkerEv_ne_callScan (h2 e he)
  have hphase1 := count_cancel_fold_nofinal t1 h1 hnf ⟨true, false, WorkerPC.running, 0⟩
  have hcancel : (step (t1.foldl step ⟨true, false, WorkerPC.running, 0⟩)
      ScanEv.callCancel).cancelRequested = true := rfl
  have hcount : (step (t1.foldl step ⟨true, false, WorkerPC.running, 0⟩)
      ScanEv.callCancel).callbackCount = 0 := by
    show (t1.foldl step ⟨true, false, WorkerPC.running, 0⟩).callbackCount = 0
    exact hphase1.1
  have hphase2 := count_zero_cancelled_fold t2 hne2 _ hcancel
  constructor
  · rw [hrun]
    rw [hphase2.1, hcount]
  · intro hmem
    rw [hrun]
    have hall : ∀ e ∈ t1 ++ ScanEv.callCancel :: t2, e ≠ ScanEv.callScan := by
      intro e he
      rcases List.mem_append.mp he with he | he
      · exact hne1 e he
      · rcases List.mem_cons.mp he with he | he
        · subst he; simp
        · exact hne2 e he
    have hfold : t2.foldl step (step (t1.foldl step ⟨true, false, WorkerPC.running, 0⟩)
        ScanEv.callCancel) = (t1 ++ ScanEv.callCancel :: t2).foldl step
          ⟨true, false, WorkerPC.running, 0⟩ := by
      rw [List.foldl_append, List.foldl_cons]
    rw [hfold]
    have hiff := scanning_iff_running_fold (t1 ++ ScanEv.callCancel :: t2) hall
      ⟨true, false, WorkerPC.running, 0⟩ (by simp)
    have hclear : ScanEv.workerClear ∈ t1 ++ ScanEv.callCancel :: t2 := by
      rcases hmem with h | h
      · exact List.mem_append.mpr (Or.inl h)
      · exact List.mem_append.mpr (Or.inr (List.mem_cons_of_mem _ h))
    have hpc := clear_in_fold_not_running (t1 ++ ScanEv.callCancel :: t2) hall hclear
      ⟨true, false, WorkerPC.running, 0⟩
    rcases hb : ((t1 ++ ScanEv.callCancel :: t2).foldl step
        ⟨true, false, WorkerPC.running, 0⟩).scanning with _ | _
    · rfl
    · exact absurd (hiff.mp hb) hpc

/-- Witness for claim C9: cancel immediately after the call, worker then
clears and runs its final check. -/
theorem cancel_skips_callback_witness :
    (run [ScanEv.callScan, ScanEv.callCancel, ScanEv.workerClear,
      ScanEv.workerFinal]).callbackCount = 0 ∧
    (run [ScanEv.callScan, ScanEv.callCancel, ScanEv.workerClear,
      ScanEv.workerFinal]).scanning = false := by
  have h := cancel_skips_callback [] [ScanEv.workerClear, ScanEv.workerFinal]
    (by intro e he; simp at he) (by decide) (by simp)
  exact ⟨h.1, h.2 (Or.inr (by simp))⟩

/-- Reading back an encoded `uint32_t` recovers the value and leaves the
rest of the stream. -/
theorem readU32_encode {n : Nat} (rest : List Nat) (old : Nat) (h : n < 4294967296) :
    readU32 ⟨u32le n ++ rest, false⟩ old = (n, ⟨rest, false⟩) := by
  show (decodeLE (n % 256) (n / 256 % 256) (n / 65536 % 256) (n / 16777216 % 256),
    (⟨rest, false⟩ : IStream)) = (n, ⟨rest, false⟩)
  have hd : decodeLE (n % 256) (n / 256 % 256) (n / 65536 % 256) (n / 16777216 % 256) = n := by
    unfold decodeLE
    omega
  rw [hd]

/-- Reading back an encoded `int` recovers the value. -/
theorem readI32_encode {y : Int} (rest : List Nat) (old : Int)
    (hlo : -2147483648 ≤ y) (hhi : y < 2147483648) :
    readI32 ⟨i32le y ++ rest, false⟩ old = (y, ⟨rest, false⟩) := by
  show (toI32 (decodeLE ((y % 4294967296).toNat % 256) ((y % 4294967296).toNat / 256 % 256)
      ((y % 4294967296).toNat / 65536 % 256) ((y % 4294967296).toNat / 16777216 % 256)),
    (⟨rest, false⟩ : IStream)) = (y, ⟨rest, false⟩)
  have hb : (y % 4294967296).toNat < 4294967296 := by omega
  have hd : decodeLE ((y % 4294967296).toNat % 256) ((y % 4294967296).toNat / 256 % 256)
      ((y % 4294967296).toNat / 65536 % 256) ((y % 4294967296).toNat / 16777216 % 256) =
      (y % 4294967296).toNat := by
    unfold decodeLE
    omega
  rw [hd]
  have ht : toI32 (y % 4294967296).toNat = y := by
    unfold toI32
    split <;> omega
  rw [ht]

/-- Reading back `n` bytes from a stream that starts with an `n`-byte
block yields the block. -/
theorem readStr_encode (s rest : List Nat) :
    readStr ⟨s ++ rest, false⟩ s.length = (s, ⟨rest, false⟩) := by
  simp only [readStr, Bool.false_eq_true, if_false, List.length_append,
    Nat.le_add_right, if_pos, List.take_left, List.drop_left]

/-- Within the `uint32_t` range the length-prefixed writer is just the
length word followed by the full payload. -/
theorem writeStr_eq {s : List Nat} (h : s.length < 4294967296) :
    writeStr s = u32le s.length ++ s := by
  simp only [writeStr, Nat.mod_eq_of_lt h, List.take_length]

/-- Round trip of the audio-file loop. -/
theorem readFileList_encode : ∀ (files : List (List Nat)) (rest : List Nat) (len : Nat),
    (∀ f ∈ files, f.length < 4294967296) →
    readFileList files.length ⟨(files.map writeStr).flatten ++ rest, false⟩ len =
      (files, ⟨rest, false⟩) := by
  intro files
  induction files with
  | nil => intro rest len _; simp [readFileList]
  | cons f fsx ih =>
    intro rest len hall
    have hf : f.length < 4294967296 := hall f (List.mem_cons_self _ _)
    have hrest : ∀ x ∈ fsx, x.length < 4294967296 :=
      fun x hx => hall x (List.mem_cons_of_mem f hx)
    have hbytes : ((f :: fsx).map writeStr).flatten ++ rest =
        u32le f.length ++ (f ++ ((fsx.map writeStr).flatten ++ rest)) := by
      rw [List.map_cons, List.flatten_cons, writeStr_eq hf]
      simp [List.append_assoc]
    rw [List.length_cons, hbytes]
    simp only [readFileList]
    rw [readU32_encode _ _ hf]
    simp only [readStr_encode, ih _ _ hrest]

/-- Round trip of one album record. -/
theorem read_album_encode (junk : Nat) (a : CAlbum) (rest : List Nat) (hfit : CAlbumFits a) :
    read_album junk ⟨save_album a ++ rest, false⟩ = (a, ⟨rest, false⟩) := by
  obtain ⟨h1, h2, h3, h4lo, h4hi, h6, h7, h8⟩ := hfit
  have hbytes : save_album a ++ rest =
      u32le a.directory_path.length ++ (a.directory_path ++ (u32le a.title.length ++ (a.title ++
        (u32le a.artist.length ++ (a.artist ++ (i32le a.year ++
          (u32le a.cover_art_path.length ++ (a.cover_art_path ++
            (u32le a.audio_files.length ++
              ((a.audio_files.map writeStr).flatten ++ rest)))))))))) := by
    simp only [save_album, writeStr_eq h1, writeStr_eq h2, writeStr_eq h3, writeStr_eq h6,
      List.append_assoc]
  rw [hbytes]
  simp only [read_album, readU32_encode _ _ h1, readStr_encode,
    readU32_encode _ _ h2, readU32_encode _ _ h3,
    readI32_encode _ _ h4lo h4hi, readU32_encode _ _ h6, readU32_encode _ _ h7,
    readFileList_encode _ _ _ h8]

/-- Round trip of the album loop. -/
theorem read_albums_encode (junk : Nat) : ∀ (albums : List CAlbum) (rest : List Nat),
    (∀ a ∈ albums, CAlbumFits a) →
    read_albums junk albums.length ⟨(albums.map save_album).flatten ++ rest, false⟩ =
      (albums, ⟨rest, false⟩) := by
  intro albums
  induction albums with
  | nil => intro rest _; simp [read_albums]
  | cons a rest_albums ih =>
    intro rest hall
    have hbytes : ((a :: rest_albums).map save_album).flatten ++ rest =
        save_album a ++ ((rest_albums.map save_album).flatten ++ rest) := by
      simp [List.append_assoc]
    rw [List.length_cons, hbytes]
    simp only [read_albums, read_album_encode junk a _ (hall a (List.mem_cons_self _ _)),
      ih _ (fun x hx => hall x (List.mem_cons_of_mem a hx))]

/-- Claim C2: saving any non-empty album collection and loading it back
against the same root restores the collection field for field, for every
collection whose counts and string lengths fit the `uint32_t` fields of
the format and whose year fits a C `int` (which is how they are stored),
independently of the contents `junk` of uninitialized loader variables. -/
theorem save_load_cache_roundtrip (root : List Nat) (albums : List CAlbum)
    (hne : albums ≠ []) (hroot : root.length < 4294967296)
    (hcount : albums.length < 4294967296)
    (hfits : ∀ a ∈ albums, CAlbumFits a) :
    ∀ junk : Nat, load_cache (some (save_cache root albums)) root junk = albums := by
  intro junk
  have hbytes : save_cache root albums =
      u32le 1 ++ (u32le root.length ++ (root ++ (u32le albums.length ++
        ((albums.map save_album).flatten ++ [])))) := by
    simp only [save_cache, writeStr_eq hroot, List.append_assoc, List.append_nil]
  rw [hbytes]
  simp only [load_cache, readU32_encode _ _ (by omega : (1 : Nat) < 4294967296),
    readU32_encode _ _ hroot, readStr_encode, readU32_encode _ _ hcount,
    read_albums_encode junk albums [] hfits]
  simp

/-- Witness for claim C2 on a concrete two-album collection. -/
theorem save_load_cache_roundtrip_witness :
    load_cache (some (save_cache [82] [⟨[100], [116], [97], 1999, [], [[102]]⟩,
      ⟨[101], [], [], -7, [99], [[103], [104]]⟩])) [82] 5 =
    [⟨[100], [116], [97], 1999, [], [[102]]⟩, ⟨[101], [], [], -7, [99], [[103], [104]]⟩] :=
  save_load_cache_roundtrip [82]
    [⟨[100], [116], [97], 1999, [], [[102]]⟩, ⟨[101], [], [], -7, [99], [[103], [104]]⟩]
    (by simp) (by decide) (by decide)
    (by
      intro a ha
      simp only [List.mem_cons, List.not_mem_nil, or_false] at ha
      rcases ha with h | h <;> subst h <;>
        exact ⟨by decide, by decide, by decide, by decide, by decide, by decide, by decide,
          by decide⟩) 5

/-- Claim C6, behavior at the decisive inputs.  The guard cases hold: an
absent file, a wrong version word, and a mismatched root all load as the
empty collection.  But a truncated file does not: with
`truncatedCacheBytes` the loader silently fabricates a second audio path
consisting of a NUL byte (the failed reads leave the reused length
variable and the NUL-filled buffer untouched, and `ifstream::read` never
throws, so the catch-and-clear path of the source is dead code for
truncation) and returns a non-empty, corrupted collection instead of the
"no cache" result the specification promises. -/
theorem load_cache_guards_and_truncation :
    (∀ root junk, load_cache none root junk = []) ∧
    (∀ bytes root junk, load_cache (some (u32le 2 ++ bytes)) root junk = []) ∧
    (∀ junk, load_cache (some (u32le 1 ++ writeStr [82])) [83] junk = []) ∧
    (∀ junk, load_cache (some truncatedCacheBytes) [82] junk =
      [⟨[100], [116], [], 1999, [], [[97], [0]]⟩]) ∧
    ([(⟨[100], [116], [], 1999, [], [[97], [0]]⟩ : CAlbum)] ≠ ([] : List CAlbum)) := by
  refine ⟨fun root junk => rfl, fun bytes root junk => rfl, fun junk => rfl,
    fun junk => rfl, by simp⟩

/-- Field equation of the album builder. -/
theorem create_album_directory_path (fp mp : String → Option Nat) (hs : String → Nat)
    (path : String) (cs : List FSEntry) :
    (create_album_from_directory fp mp hs path cs).directory_path = path := rfl

/-- Field equation of the album builder. -/
theorem create_album_audio_files (fp mp : String → Option Nat) (hs : String → Nat)
    (path : String) (cs : List FSEntry) :
    (create_album_from_directory fp mp hs path cs).audio_files =
      (audioFilePaths path cs).insertionSort pathLe := rfl

/-- Directories that test positive for audio yield at least one eligible
path. -/
theorem audioFilePaths_ne_nil {path : String} {cs : List FSEntry}
    (h : contains_audio_files cs = true) : audioFilePaths path cs ≠ [] := by
  simp only [contains_audio_files, List.any_eq_true] at h
  obtain ⟨e, he, hm⟩ := h
  cases e with
  | dir n cs' => simp at hm
  | file n =>
    intro hnil
    have hm' : isAudioName n = true := hm
    have hmem : joinPath path n ∈ audioFilePaths path cs := by
      rw [audioFilePaths, List.mem_filterMap]
      exact ⟨FSEntry.file n, he, by simp [hm']⟩
    rw [hnil] at hmem
    simp at hmem

/-- A first-component-preserving `filterMap` yields a sublist of keys. -/
theorem map_fst_filterMap_sublist {α β γ : Type} (f : α × β → Option (α × γ))
    (hf : ∀ pe q, f pe = some q → q.1 = pe.1) :
    ∀ l : List (α × β), ((l.filterMap f).map Prod.fst).Sublist (l.map Prod.fst) := by
  intro l
  induction l with
  | nil => simp
  | cons pe t ih =>
    cases hfe : f pe with
    | none =>
      rw [List.filterMap_cons, hfe, List.map_cons]
      exact ih.cons _
    | some q =>
      rw [List.filterMap_cons, hfe, List.map_cons, List.map_cons, hf pe q hfe]
      exact ih.cons₂ _

/-- In an association list with distinct keys, a key determines its
value. -/
theorem eq_snd_of_nodup_keys {α β : Type} : ∀ {l : List (α × β)}, (l.map Prod.fst).Nodup →
    ∀ {a : α} {b₁ b₂ : β}, (a, b₁) ∈ l → (a, b₂) ∈ l → b₁ = b₂ := by
  intro l
  induction l with
  | nil => intro _ a b₁ b₂ h1; simp at h1
  | cons x t ih =>
    intro hnd a b₁ b₂ h1 h2
    rw [List.map_cons, List.nodup_cons] at hnd
    obtain ⟨hx, hnd'⟩ := hnd
    rcases List.mem_cons.mp h1 with h1 | h1 <;> rcases List.mem_cons.mp h2 with h2 | h2
    · exact congrArg Prod.snd (h1.trans h2.symm)
    · exfalso
      apply hx
      have hxa : x.1 = a := by rw [← h1]
      rw [hxa]
      exact List.mem_map.mpr ⟨(a, b₂), h2, rfl⟩
    · exfalso
      apply hx
      have hxa : x.1 = a := by rw [← h2]
      rw [hxa]
      exact List.mem_map.mpr ⟨(a, b₁), h1, rfl⟩
    · exact ih hnd' h1 h2

/-- Characterization of the candidate list. -/
theorem mem_album_dirs_iff {root p : String} {rc cs : List FSEntry} :
    (p, cs) ∈ album_dirs root rc ↔
    ∃ dn, (p, FSEntry.dir dn cs) ∈ rdirEntries root rc ∧
      is_leaf_directory cs = true ∧ contains_audio_files cs = true := by
  rw [album_dirs, List.mem_filterMap]
  constructor
  · rintro ⟨⟨q, e⟩, hmem, hf⟩
    cases e with
    | file n => simp at hf
    | dir dn cs' =>
      by_cases hc : (is_leaf_directory cs' && contains_audio_files cs') = true
      · simp only [hc, if_true, Option.some_inj] at hf
        obtain ⟨hq, hcs⟩ := Prod.mk.injEq _ _ _ _ ▸ hf
        subst hq
        subst hcs
        rcases Bool.and_eq_true_iff.mp hc with ⟨h1, h2⟩
        exact ⟨dn, hmem, h1, h2⟩
      · rw [Bool.not_eq_true] at hc
        simp [hc] at hf
  · rintro ⟨dn, hmem, h1, h2⟩
    exact ⟨(p, FSEntry.dir dn cs), hmem, by simp [h1, h2]⟩

/-- Characterization of the built album list. -/
theorem mem_built_albums_iff {fp mp : String → Option Nat} {hs : String → Nat}
    {root : String} {rc : List FSEntry} {a : Album} :
    a ∈ built_albums fp mp hs root rc ↔
    (∃ pc ∈ album_dirs root rc, create_album_from_directory fp mp hs pc.1 pc.2 = a) ∧
      a.audio_files ≠ [] := by
  rw [built_albums, List.mem_filter, List.mem_map]
  constructor
  · rintro ⟨⟨pc, hpc, heq⟩, hne⟩
    refine ⟨⟨pc, hpc, heq⟩, ?_⟩
    intro hnil
    rw [hnil] at hne
    simp at hne
  · rintro ⟨⟨pc, hpc, heq⟩, hne⟩
    refine ⟨⟨pc, hpc, heq⟩, ?_⟩
    simpa [List.isEmpty_iff] using hne

/-- Appending distinct names to the same directory gives distinct paths. -/
theorem joinPath_right_inj {p n₁ n₂ : String} (h : joinPath p n₁ = joinPath p n₂) : n₁ = n₂ := by
  unfold joinPath at h
  split at h
  · have := congrArg String.data h
    rw [String.data_append, String.data_append] at this
    exact String.ext (List.append_cancel_left this)
  · have := congrArg String.data h
    simp only [String.data_append, List.append_assoc] at this
    exact String.ext (List.append_cancel_left (List.append_cancel_left this))

/-- With distinct entry names (a filesystem invariant) the eligible audio
paths of one directory are distinct. -/
theorem audioFilePaths_nodup {path : String} {cs : List FSEntry}
    (h : (cs.map FSEntry.name).Nodup) : (audioFilePaths path cs).Nodup := by
  rw [audioFilePaths]
  apply List.Nodup.filterMap _ (List.Nodup.of_map FSEntry.name h)
  intro e e' b hb hb'
  cases e with
  | dir n cs' => simp at hb
  | file n =>
    cases e' with
    | dir n' cs' => simp at hb'
    | file n' =>
      by_cases h1 : isAudioName n = true
      · by_cases h2 : isAudioName n' = true
        · simp only [h1, h2, if_true, Option.mem_def, Option.some_inj] at hb hb'
          rw [← hb'] at hb
          rw [joinPath_right_inj hb]
        · simp [h2] at hb'
      · simp [h1] at hb

/-- Every conventional cover filename carries an image extension. -/
theorem cover_names_have_image_ext :
    ∀ n ∈ cover_names, imageExtensions.contains (lowerStr (extOf n)) = true := by
  decide

/-- Without any image-extension file in the directory, `find_cover_art`
comes back empty. -/
theorem find_cover_art_eq_empty {path : String} {cs : List FSEntry}
    (h : ∀ n, FSEntry.file n ∈ cs → imageExtensions.contains (lowerStr (extOf n)) = false) :
    find_cover_art path cs = "" := by
  rw [find_cover_art]
  have h1 : cover_names.find? (fun n => cs.any fun e =>
      match e with
      | FSEntry.file m => m == n
      | FSEntry.dir _ _ => false) = none := by
    rw [List.find?_eq_none]
    intro n hn hc
    rw [List.any_eq_true] at hc
    obtain ⟨e, he, hm⟩ := hc
    cases e with
    | dir m cs' => simp at hm
    | file m =>
      have hmn : m = n := by simpa using hm
      subst hmn
      have hfalse := h m he
      rw [cover_names_have_image_ext m hn] at hfalse
      simp at hfalse
  rw [h1]
  have h2 : firstImageFile cs = none := by
    rw [firstImageFile, List.findSome?_eq_none_iff]
    intro e he
    cases e with
    | dir n cs' => simp
    | file n =>
      have h' : lowerStr (extOf n) ∉ imageExtensions := by simpa using h n he
      simp [h']
  rw [h2]

/-- Claim C10: embedded-artwork extraction is gated on the `.flac` and
`.mp3` extensions — for any other extension it returns the empty string
no matter what the tag oracles would offer — and consequently an album
whose directory holds no image-extension file and whose first sorted
audio file is neither `.flac` nor `.mp3` ends up with an empty cover-art
path. -/
theorem extract_embedded_art_flac_mp3_only :
    (∀ (flacPic mp3Apic : String → Option Nat) (hashOf : String → Nat) (f : String),
      lowerStr (fsExtension f) ≠ ".flac" → lowerStr (fsExtension f) ≠ ".mp3" →
      extract_embedded_art flacPic mp3Apic hashOf f = "") ∧
    (∀ (flacPic mp3Apic : String → Option Nat) (hashOf : String → Nat)
      (path : String) (cs : List FSEntry),
      (∀ n, FSEntry.file n ∈ cs → imageExtensions.contains (lowerStr (extOf n)) = false) →
      (∀ f, (create_album_from_directory flacPic mp3Apic hashOf path cs).audio_files.head? =
          some f →
        lowerStr (fsExtension f) ≠ ".flac" ∧ lowerStr (fsExtension f) ≠ ".mp3") →
      (create_album_from_directory flacPic mp3Apic hashOf path cs).cover_art_path = "") := by
  have hpart1 : ∀ (flacPic mp3Apic : String → Option Nat) (hashOf : String → Nat) (f : String),
      lowerStr (fsExtension f) ≠ ".flac" → lowerStr (fsExtension f) ≠ ".mp3" →
      extract_embedded_art flacPic mp3Apic hashOf f = "" := by
    intro flacPic mp3Apic hashOf f h1 h2
    rw [extract_embedded_art]
    rw [if_neg h1, if_neg h2]
  refine ⟨hpart1, ?_⟩
  intro flacPic mp3Apic hashOf path cs himg hfirst
  have hcov : find_cover_art path cs = "" := find_cover_art_eq_empty himg
  show (let meta := extract_metadata path
    let cover0 := find_cover_art path cs
    let audio := (audioFilePaths path cs).insertionSort pathLe
    let cover :=
      if cover0 = "" then
        match audio with
        | [] => cover0
        | f :: _ => extract_embedded_art flacPic mp3Apic hashOf f
      else cover0
    (⟨path, meta.title, meta.artist, meta.year, cover, audio⟩ : Album)).cover_art_path = ""
  simp only [hcov, if_pos rfl]
  cases haudio : (audioFilePaths path cs).insertionSort pathLe with
  | nil => rfl
  | cons f t =>
    have hhead : (create_album_from_directory flacPic mp3Apic hashOf path cs).audio_files.head?
        = some f := by
      rw [create_album_audio_files, haudio]
      rfl
    obtain ⟨h1, h2⟩ := hfirst f hhead
    exact hpart1 flacPic mp3Apic hashOf f h1 h2

/-- Witness for claim C10: a directory with a single `.ogg` file keeps an
empty cover path even under oracles that offer artwork for every file. -/
theorem extract_embedded_art_flac_mp3_only_witness :
    (create_album_from_directory (fun _ => some 5) (fun _ => some 5) zeroHash
      "/m/x" [FSEntry.file "a.ogg"]).cover_art_path = "" := by
  apply extract_embedded_art_flac_mp3_only.2
  · intro n hn
    have hn' : n = "a.ogg" := by
      have := List.mem_singleton.mp hn
      injection this
    subst hn'
    decide
  · intro f hf
    have hf' : f = "/m/x/a.ogg" := by
      have : (create_album_from_directory (fun _ => some 5) (fun _ => some 5) zeroHash
          "/m/x" [FSEntry.file "a.ogg"]).audio_files = ["/m/x/a.ogg"] := by decide
      rw [this] at hf
      exact (Option.some_inj.mp hf).symm
    subst hf'
    exact ⟨by decide, by decide⟩

/-- Claim C5, counterexample: two sibling leaf directories `Same` and
`same` fold to the same sort key; the reversed order of the built list is
a legitimate `std::sort` outcome (a sorted permutation) yet differs from
the stable arrangement that keeps directory-enumeration order, so
stability is not guaranteed. -/
theorem scan_sort_stability_counterexample :
    scan_result noPic noPic zeroHash "/m"
      [FSEntry.dir "x" [FSEntry.dir "Same" [FSEntry.file "a.mp3"]],
       FSEntry.dir "y" [FSEntry.dir "same" [FSEntry.file "b.mp3"]]]
      ((built_albums noPic noPic zeroHash "/m"
        [FSEntry.dir "x" [FSEntry.dir "Same" [FSEntry.file "a.mp3"]],
         FSEntry.dir "y" [FSEntry.dir "same" [FSEntry.file "b.mp3"]]]).reverse) ∧
    (built_albums noPic noPic zeroHash "/m"
      [FSEntry.dir "x" [FSEntry.dir "Same" [FSEntry.file "a.mp3"]],
       FSEntry.dir "y" [FSEntry.dir "same" [FSEntry.file "b.mp3"]]]).reverse ≠
      (built_albums noPic noPic zeroHash "/m"
        [FSEntry.dir "x" [FSEntry.dir "Same" [FSEntry.file "a.mp3"]],
         FSEntry.dir "y" [FSEntry.dir "same" [FSEntry.file "b.mp3"]]]).insertionSort titleLeP := by
  have hb : built_albums noPic noPic zeroHash "/m"
      [FSEntry.dir "x" [FSEntry.dir "Same" [FSEntry.file "a.mp3"]],
       FSEntry.dir "y" [FSEntry.dir "same" [FSEntry.file "b.mp3"]]] =
      [⟨"/m/x/Same", "Same", "x", 0, "", ["/m/x/Same/a.mp3"]⟩,
       ⟨"/m/y/same", "same", "y", 0, "", ["/m/y/same/b.mp3"]⟩] := by
    simp only [built_albums, album_dirs, rdirEntries]
    decide
  refine ⟨⟨List.reverse_perm _, ?_⟩, ?_⟩
  · rw [hb]
    rw [show ([(⟨"/m/x/Same", "Same", "x", 0, "", ["/m/x/Same/a.mp3"]⟩ : Album),
      ⟨"/m/y/same", "same", "y", 0, "", ["/m/y/same/b.mp3"]⟩].reverse) =
      [⟨"/m/y/same", "same", "y", 0, "", ["/m/y/same/b.mp3"]⟩,
       ⟨"/m/x/Same", "Same", "x", 0, "", ["/m/x/Same/a.mp3"]⟩] from rfl]
    rw [List.chain'_pair]
    decide
  · rw [hb]
    decide

/-- Claim C5, amended: every completed scan result is a permutation of
the built albums that is sorted by case-insensitively lowered title
ascending; the relative order of albums with equal lowered titles is
unspecified (`std::sort` is not stable). -/
theorem scan_result_sorted_by_title (fp mp : String → Option Nat) (hs : String → Nat)
    (root : String) (rc : List FSEntry) (albums : List Album)
    (hscan : scan_result fp mp hs root rc albums) :
    albums.Perm (built_albums fp mp hs root rc) ∧
    List.Pairwise (fun a b => lowerStr a.title ≤ lowerStr b.title) albums := by
  obtain ⟨hperm, hchain⟩ := hscan
  refine ⟨hperm, ?_⟩
  have hchain' : List.Chain' (fun a b : Album => lowerStr a.title ≤ lowerStr b.title) albums := by
    refine hchain.imp ?_
    intro a b hab
    have hab' : lexLt (lowerStr b.title).data (lowerStr a.title).data = false := hab
    have hnot : ¬ lowerStr b.title < lowerStr a.title := by
      intro hcon
      rw [← strLt_iff] at hcon
      rw [hab'] at hcon
      exact Bool.false_ne_true hcon
    exact not_lt.mp hnot
  haveI : IsTrans Album (fun a b : Album => lowerStr a.title ≤ lowerStr b.title) :=
    ⟨fun _ _ _ h1 h2 => le_trans h1 h2⟩
  exact List.chain'_iff_pairwise.mp hchain'

/-- Witness for the amended claim C5 on a one-album tree. -/
theorem scan_result_sorted_by_title_witness :
    (built_albums noPic noPic zeroHash "/w" [FSEntry.dir "A" [FSEntry.file "t.mp3"]]).Perm
      (built_albums noPic noPic zeroHash "/w" [FSEntry.dir "A" [FSEntry.file "t.mp3"]]) ∧
    List.Pairwise (fun a b => lowerStr a.title ≤ lowerStr b.title)
      (built_albums noPic noPic zeroHash "/w" [FSEntry.dir "A" [FSEntry.file "t.mp3"]]) :=
  scan_result_sorted_by_title noPic noPic zeroHash "/w" [FSEntry.dir "A" [FSEntry.file "t.mp3"]]
    (built_albums noPic noPic zeroHash "/w" [FSEntry.dir "A" [FSEntry.file "t.mp3"]])
    ⟨List.Perm.refl _, by
      have hb : built_albums noPic noPic zeroHash "/w" [FSEntry.dir "A" [FSEntry.file "t.mp3"]] =
          [⟨"/w/A", "A", "w", 0, "", ["/w/A/t.mp3"]⟩] := by
        simp only [built_albums, album_dirs, rdirEntries]
        decide
      rw [hb]
      exact List.chain'_singleton _⟩

/-- Claim C7: every album of a completed scan has a non-empty audio list,
sorted by the path order, and stems from a visited directory all of whose
listed audio paths name regular-file entries of that directory (the
existence re-check at build time holds by construction in a snapshot). -/
theorem scan_result_album_invariants (fp mp : String → Option Nat) (hs : String → Nat)
    (root : String) (rc : List FSEntry) (albums : List Album)
    (hscan : scan_result fp mp hs root rc albums) :
    ∀ a ∈ albums,
      a.audio_files ≠ [] ∧
      List.Sorted (fun x y : String => x ≤ y) a.audio_files ∧
      ∃ dn cs, (a.directory_path, FSEntry.dir dn cs) ∈ rdirEntries root rc ∧
        ∀ p ∈ a.audio_files, ∃ n, FSEntry.file n ∈ cs ∧ p = joinPath a.directory_path n := by
  intro a ha
  have hmem : a ∈ built_albums fp mp hs root rc := (hscan.1.mem_iff).mp ha
  obtain ⟨⟨pc, hpc, heq⟩, hne⟩ := mem_built_albums_iff.mp hmem
  have hpc' : (pc.1, pc.2) ∈ album_dirs root rc := hpc
  obtain ⟨dn, hrdir, hleaf, haud⟩ := mem_album_dirs_iff.mp hpc'
  refine ⟨hne, ?_, dn, pc.2, ?_, ?_⟩
  · rw [← heq, create_album_audio_files]
    haveI : IsTotal String pathLe :=
      ⟨fun a b => (le_total a b).imp (pathLe_iff a b).mpr (pathLe_iff b a).mpr⟩
    haveI : IsTrans String pathLe :=
      ⟨fun a b c hab hbc =>
        (pathLe_iff a c).mpr (le_trans ((pathLe_iff a b).mp hab) ((pathLe_iff b c).mp hbc))⟩
    exact (List.sorted_insertionSort pathLe _).imp fun h => (pathLe_iff _ _).mp h
  · rw [← heq, create_album_directory_path]
    exact hrdir
  · intro p hp
    rw [← heq, create_album_audio_files] at hp
    have hp' : p ∈ audioFilePaths pc.1 pc.2 :=
      ((List.perm_insertionSort pathLe _).mem_iff).mp hp
    rw [audioFilePaths] at hp'
    obtain ⟨e, he, hfe⟩ := List.mem_filterMap.mp hp'
    cases e with
    | dir n cs' => simp at hfe
    | file n =>
      by_cases haun : isAudioName n = true
      · simp only [haun, if_true, Option.some_inj] at hfe
        refine ⟨n, he, ?_⟩
        rw [← heq, create_album_directory_path]
        exact hfe.symm
      · simp [haun] at hfe

/-- Witness for claim C7, instantiated at the one album a two-file
directory produces. -/
theorem scan_result_album_invariants_witness :
    (⟨"/r/B", "B", "r", 0, "", ["/r/B/1.ogg", "/r/B/2.ogg"]⟩ : Album).audio_files ≠ [] ∧
    List.Sorted (fun x y : String => x ≤ y)
      (⟨"/r/B", "B", "r", 0, "", ["/r/B/1.ogg", "/r/B/2.ogg"]⟩ : Album).audio_files ∧
    ∃ dn cs,
      ((⟨"/r/B", "B", "r", 0, "", ["/r/B/1.ogg", "/r/B/2.ogg"]⟩ : Album).directory_path,
        FSEntry.dir dn cs) ∈
        rdirEntries "/r" [FSEntry.dir "B" [FSEntry.file "2.ogg", FSEntry.file "1.ogg"]] ∧
      ∀ p ∈ (⟨"/r/B", "B", "r", 0, "", ["/r/B/1.ogg", "/r/B/2.ogg"]⟩ : Album).audio_files,
        ∃ n, FSEntry.file n ∈ cs ∧
          p = joinPath
            (⟨"/r/B", "B", "r", 0, "", ["/r/B/1.ogg", "/r/B/2.ogg"]⟩ : Album).directory_path n := by
  have hb : built_albums noPic noPic zeroHash "/r"
      [FSEntry.dir "B" [FSEntry.file "2.ogg", FSEntry.file "1.ogg"]] =
      [⟨"/r/B", "B", "r", 0, "", ["/r/B/1.ogg", "/r/B/2.ogg"]⟩] := by
    simp only [built_albums, album_dirs, rdirEntries]
    decide
  exact scan_result_album_invariants noPic noPic zeroHash "/r"
    [FSEntry.dir "B" [FSEntry.file "2.ogg", FSEntry.file "1.ogg"]]
    [⟨"/r/B", "B", "r", 0, "", ["/r/B/1.ogg", "/r/B/2.ogg"]⟩]
    ⟨by rw [hb], List.chain'_singleton _⟩
    _ (List.mem_singleton.mpr rfl)

/-- Claim C1: in a snapshot whose visited paths are distinct and whose
entry names within the leaf are distinct (filesystem invariants), a leaf
directory `D` containing at least one eligible audio file yields exactly
one album keyed by `D` in every completed scan result, and that album's
audio list is the sorted, de-duplicated list of `D`'s eligible audio
paths. -/
theorem scan_unique_album_per_leaf_dir (fp mp : String → Option Nat) (hs : String → Nat)
    (root D dn : String) (rc cs : List FSEntry) (albums : List Album)
    (hpaths : ((rdirEntries root rc).map Prod.fst).Nodup)
    (hmemD : (D, FSEntry.dir dn cs) ∈ rdirEntries root rc)
    (hleaf : is_leaf_directory cs = true)
    (haudio : contains_audio_files cs = true)
    (hnames : (cs.map FSEntry.name).Nodup)
    (hscan : scan_result fp mp hs root rc albums) :
    albums.countP (fun a => a.directory_path == D) = 1 ∧
    ∀ a ∈ albums, a.directory_path = D →
      a.audio_files = ((audioFilePaths D cs).dedup).insertionSort pathLe := by
  have hDmem : (D, cs) ∈ album_dirs root rc := mem_album_dirs_iff.mpr ⟨dn, hmemD, hleaf, haudio⟩
  have hadnodup : ((album_dirs root rc).map Prod.fst).Nodup := by
    apply List.Sublist.nodup _ hpaths
    rw [album_dirs]
    apply map_fst_filterMap_sublist
    intro pe q hq
    obtain ⟨p, e⟩ := pe
    cases e with
    | file n => simp at hq
    | dir dn' cs' =>
      by_cases hc : (is_leaf_directory cs' && contains_audio_files cs') = true
      · simp only [hc, if_true, Option.some_inj] at hq
        rw [← hq]
      · rw [Bool.not_eq_true] at hc
        simp [hc] at hq
  have huniq : ∀ pc ∈ album_dirs root rc, pc.1 = D → pc = (D, cs) := by
    intro pc hpc hfst
    have hpc2 : (D, pc.2) ∈ album_dirs root rc := by
      rw [← hfst]
      exact hpc
    have hsnd : pc.2 = cs := eq_snd_of_nodup_keys hadnodup hpc2 hDmem
    calc pc = (pc.1, pc.2) := rfl
    _ = (D, cs) := by rw [hfst, hsnd]
  have hDne : (create_album_from_directory fp mp hs D cs).audio_files ≠ [] := by
    rw [create_album_audio_files]
    intro hnil
    apply @audioFilePaths_ne_nil D cs haudio
    have hperm := List.perm_insertionSort pathLe (audioFilePaths D cs)
    rw [hnil] at hperm
    exact hperm.symm.eq_nil
  constructor
  · rw [hscan.1.countP_eq]
    rw [built_albums, List.countP_filter, List.countP_map]
    have hcongr : List.countP
        ((fun a => a.directory_path == D && !a.audio_files.isEmpty) ∘ fun pc =>
          create_album_from_directory fp mp hs pc.1 pc.2) (album_dirs root rc) =
        List.countP (fun pc => pc.1 == D) (album_dirs root rc) := by
      apply List.countP_congr
      intro pc hpc
      simp only [Function.comp_apply, create_album_directory_path, Bool.and_eq_true,
        beq_iff_eq, Bool.not_eq_true', List.isEmpty_eq_false]
      constructor
      · intro hh
        exact hh.1
      · intro hh
        refine ⟨hh, ?_⟩
        have := huniq pc hpc hh
        rw [this]
        exact hDne
    rw [hcongr]
    have hcp : List.countP (fun pc => pc.1 == D) (album_dirs root rc) =
        List.count D ((album_dirs root rc).map Prod.fst) := by
      rw [List.count_eq_countP, List.countP_map]
      rfl
    rw [hcp]
    exact List.count_eq_one_of_mem hadnodup (List.mem_map.mpr ⟨(D, cs), hDmem, rfl⟩)
  · intro a ha hdp
    have hmem : a ∈ built_albums fp mp hs root rc := (hscan.1.mem_iff).mp ha
    obtain ⟨⟨pc, hpc, heq⟩, hne⟩ := mem_built_albums_iff.mp hmem
    have hfst : pc.1 = D := by
      rw [← hdp, ← heq, create_album_directory_path]
    have hpcD := huniq pc hpc hfst
    rw [← heq, hpcD, create_album_audio_files,
      List.dedup_eq_self.mpr (audioFilePaths_nodup hnames)]

/-- Witness for claim C1 on a concrete tree with one artist directory and
one leaf album directory holding two eligible files, a hidden sidecar and
a non-audio file. -/
theorem scan_unique_album_per_leaf_dir_witness :
    (built_albums noPic noPic zeroHash "/m"
      [FSEntry.dir "Artist" [FSEntry.dir "(1999) Al" [FSEntry.file "b.mp3",
        FSEntry.file "a.mp3", FSEntry.file "._b.mp3", FSEntry.file "x.txt"]]]).countP
      (fun a => a.directory_path == "/m/Artist/(1999) Al") = 1 ∧
    ∀ a ∈ built_albums noPic noPic zeroHash "/m"
      [FSEntry.dir "Artist" [FSEntry.dir "(1999) Al" [FSEntry.file "b.mp3",
        FSEntry.file "a.mp3", FSEntry.file "._b.mp3", FSEntry.file "x.txt"]]],
      a.directory_path = "/m/Artist/(1999) Al" →
      a.audio_files = ((audioFilePaths "/m/Artist/(1999) Al" [FSEntry.file "b.mp3",
        FSEntry.file "a.mp3", FSEntry.file "._b.mp3",
        FSEntry.file "x.txt"]).dedup).insertionSort pathLe :=
  scan_unique_album_per_leaf_dir noPic noPic zeroHash "/m" "/m/Artist/(1999) Al" "(1999) Al"
    [FSEntry.dir "Artist" [FSEntry.dir "(1999) Al" [FSEntry.file "b.mp3",
      FSEntry.file "a.mp3", FSEntry.file "._b.mp3", FSEntry.file "x.txt"]]]
    [FSEntry.file "b.mp3", FSEntry.file "a.mp3", FSEntry.file "._b.mp3", FSEntry.file "x.txt"]
    (built_albums noPic noPic zeroHash "/m"
      [FSEntry.dir "Artist" [FSEntry.dir "(1999) Al" [FSEntry.file "b.mp3",
        FSEntry.file "a.mp3", FSEntry.file "._b.mp3", FSEntry.file "x.txt"]]])
    (by simp only [rdirEntries]; decide) (by simp [rdirEntries, joinPath])
    (by decide) (by decide) (by decide)
    ⟨List.Perm.refl _, by
      have hb : built_albums noPic noPic zeroHash "/m"
          [FSEntry.dir "Artist" [FSEntry.dir "(1999) Al" [FSEntry.file "b.mp3",
            FSEntry.file "a.mp3", FSEntry.file "._b.mp3", FSEntry.file "x.txt"]]] =
          [⟨"/m/Artist/(1999) Al", "Al", "Artist", 1999, "",
            ["/m/Artist/(1999) Al/a.mp3", "/m/Artist/(1999) Al/b.mp3"]⟩] := by
        simp only [built_albums, album_dirs, rdirEntries]
        decide
      rw [hb]
      exact List.chain'_singleton _⟩

end AlbumBrowser
